import Mathlib

/-!
Verification development for the `tracing-ndjson` structured-event
serialization engine.

The development shallowly embeds the two concrete formatting pipelines of the
source:

* the streaming formatter `JsonEventFormatter::format_event`
  (`src/formatter.rs` and `src/lib.rs`, which contain the same logic), which
  writes JSON members one by one into a buffer and therefore may emit
  duplicate member names; and
* the map-based layer `JsonFormattingLayer::on_event` (`src/layer.rs`), which
  accumulates members into a `HashMap` before serializing, so a later insert
  with the same key overwrites an earlier one.

Machine values are modelled as follows: JSON documents are a `Json` inductive
rendered to a `String` by an executable serializer with the same escaping
discipline as `serde_json`; visitor-producible values (the primitive subset
written by `tracing_serde::SerdeMapVisitor` and the repository's `Visitor`)
are `JVal`; `u64` casts are `Int` arithmetic modulo `2 ^ 64`; timestamps are
a structure carrying the integer seconds/milliseconds counts and the
already-rendered textual forms produced by `chrono`.
-/

/-! ## JSON documents and the serde_json renderer -/

/-- A JSON value.  Object members are an ordered list of (name, value) pairs;
duplicate names are representable, exactly as a streaming serializer can
produce them. -/
inductive Json where
  | null : Json
  | bool : Bool → Json
  | num : Int → Json
  | str : String → Json
  | arr : List Json → Json
  | obj : List (String × Json) → Json
deriving Repr

/-- Decimal digit character: `digitChar d` is `'0'`..`'9'` for `d < 10`. -/
def digitChar (d : Nat) : Char :=
  Char.ofNat (48 + d % 10)

/-- Hexadecimal digit character (lowercase), as used by serde_json's
`\uXXXX` escapes. -/
def hexDigit (d : Nat) : Char :=
  if d % 16 < 10 then Char.ofNat (48 + d % 16) else Char.ofNat (87 + d % 16)

/-- Decimal digits of a natural number, most significant first. -/
def natDigits (n : Nat) : List Char :=
  if _h : n < 10 then [digitChar n]
  else natDigits (n / 10) ++ [digitChar (n % 10)]
termination_by n
decreasing_by
  exact Nat.div_lt_self (by omega) (by omega)

/-- Decimal rendering of an integer, as `serde_json` renders `i64`/`u64`
values (a minus sign followed by the digits when negative). -/
def renderInt (i : Int) : List Char :=
  if i < 0 then '-' :: natDigits i.natAbs else natDigits i.natAbs

/-- The escape of one character inside a JSON string literal, following
`serde_json`'s writer: `"` and `\` get a backslash escape, the named control
characters use their short forms, all other control characters use a
`\u00XX` escape, and everything else is passed through. -/
def escapeChar (c : Char) : List Char :=
  if c = '"' then ['\\', '"']
  else if c = '\\' then ['\\', '\\']
  else if c = '\x08' then ['\\', 'b']
  else if c = '\t' then ['\\', 't']
  else if c = '\n' then ['\\', 'n']
  else if c = '\x0c' then ['\\', 'f']
  else if c = '\r' then ['\\', 'r']
  else if c.toNat < 32 then
    ['\\', 'u', '0', '0', hexDigit (c.toNat / 16), hexDigit (c.toNat % 16)]
  else [c]

/-- A JSON string literal: quote, escaped characters, quote. -/
def renderString (s : String) : List Char :=
  '"' :: s.data.flatMap escapeChar ++ ['"']

mutual

/-- Executable JSON serializer producing the same text as `serde_json`'s
compact writer (no whitespace, members in list order). -/
def renderJson : Json → List Char
  | .null => "null".data
  | .bool b => if b then "true".data else "false".data
  | .num i => renderInt i
  | .str s => renderString s
  | .arr xs => '[' :: renderElems xs ++ [']']
  | .obj ms => '\x7b' :: renderMembers ms ++ ['\x7d']

/-- Comma-separated array elements. -/
def renderElems : List Json → List Char
  | [] => []
  | [x] => renderJson x
  | x :: y :: rest => renderJson x ++ ',' :: renderElems (y :: rest)

/-- Comma-separated object members, each `"name":value`. -/
def renderMembers : List (String × Json) → List Char
  | [] => []
  | [(k, v)] => renderString k ++ ':' :: renderJson v
  | (k, v) :: m :: rest =>
      renderString k ++ ':' :: renderJson v ++ ',' :: renderMembers (m :: rest)

end

/-! ## Visitor-producible values

`tracing_serde::SerdeMapVisitor` and the repository's own `Visitor`
(`src/visitor.rs`) only ever write primitive JSON values: numbers from the
integer `record_*` callbacks, booleans, and strings (`record_str`, plus the
eagerly rendered `record_error` / `record_debug` texts).  Floating point
recording is outside the model. -/

/-- A primitive attribute value as produced by the field visitors. -/
inductive JVal where
  | num : Int → JVal
  | bool : Bool → JVal
  | str : String → JVal
deriving Repr, DecidableEq

/-- Injection of a visitor value into a JSON document. -/
def JVal.toJson : JVal → Json
  | .num i => .num i
  | .bool b => .bool b
  | .str s => .str s

/-- A set of recorded attributes in recording order, as handed to
`Event::record` / `Record::record` by the tracing runtime. -/
abbrev Fields := List (String × JVal)

/-! ## Timestamps (`src/lib.rs` lines 12-51) -/

/-- The `TimestampFormat` enum from `src/lib.rs`. -/
inductive TimestampFormat where
  | Unix : TimestampFormat
  | UnixMillis : TimestampFormat
  | Rfc3339 : TimestampFormat
  | Rfc3339Nanos : TimestampFormat
  | Custom : String → TimestampFormat
deriving Repr, DecidableEq

/-- A capture instant.  `chrono`'s arithmetic and calendar rendering are not
re-implemented; an instant carries the signed seconds and milliseconds counts
since the UNIX epoch (`timestamp()` / `timestamp_millis()`, both `i64`) and
the already-rendered textual forms used by `format_string`. -/
structure Instant where
  secs : Int
  millis : Int
  rfc3339 : String
  rfc3339Nanos : String
  custom : String → String

/-- Rust's `as u64` cast on an `i64` value: reinterpretation modulo `2 ^ 64`.
The result is the unique representative in `[0, 2 ^ 64)`. -/
def asU64 (i : Int) : Int :=
  i % (2 ^ 64)

/-- Embeds `TimestampFormat::format_string` (`src/lib.rs` lines 30-40). -/
def TimestampFormat.format_string : TimestampFormat → Instant → String
  | .Unix, now => ⟨renderInt now.secs⟩
  | .UnixMillis, now => ⟨renderInt now.millis⟩
  | .Rfc3339, now => now.rfc3339
  | .Rfc3339Nanos, now => now.rfc3339Nanos
  | .Custom f, now => now.custom f

/-- Embeds `TimestampFormat::format_number` (`src/lib.rs` lines 42-50): the seconds
or milliseconds count cast `as u64`.  The three remaining arms are
`unreachable!` in the source; every embedded caller guards the call with the
same `matches!(_, Unix | UnixMillis)` test the source uses, so those arms are
never taken (modelled as `0`). -/
def TimestampFormat.format_number : TimestampFormat → Instant → Int
  | .Unix, now => asU64 now.secs
  | .UnixMillis, now => asU64 now.millis
  | _, _ => 0

/-- The `matches!(self.timestamp_format, Unix | UnixMillis)` test of
`format_event` (`src/formatter.rs` lines 98-101). -/
def TimestampFormat.isNumeric : TimestampFormat → Bool
  | .Unix => true
  | .UnixMillis => true
  | _ => false

/-- The JSON value written under the timestamp name: a number for
`Unix`/`UnixMillis`, a string otherwise (`src/formatter.rs` lines 98-115 and
`src/layer.rs` lines 110-120 perform the same dispatch). -/
def timestampJson (fmt : TimestampFormat) (now : Instant) : Json :=
  if fmt.isNumeric then .num (fmt.format_number now)
  else .str (fmt.format_string now)

/-! ## Levels and events -/

/-- A tracing verbosity level. -/
inductive Level where
  | trace | debug | info | warn | error
deriving Repr, DecidableEq

/-- The `Display` rendering of a level in `tracing-core` (uppercase). -/
def Level.display : Level → String
  | .trace => "TRACE"
  | .debug => "DEBUG"
  | .info => "INFO"
  | .warn => "WARN"
  | .error => "ERROR"

/-- ASCII lowercasing of one character.  Rust's `str::to_lowercase` is
Unicode-aware, but it is only ever applied to `Level`'s `Display` text,
which is ASCII, where the two agree. -/
def asciiLower (c : Char) : Char :=
  if 'A' ≤ c ∧ c ≤ 'Z' then Char.ofNat (c.toNat + 32) else c

/-- ASCII uppercasing of one character (applied only to ASCII level text). -/
def asciiUpper (c : Char) : Char :=
  if 'a' ≤ c ∧ c ≤ 'z' then Char.ofNat (c.toNat - 32) else c

/-- Embeds `str::to_lowercase` on the ASCII level text. -/
def strLower (s : String) : String :=
  ⟨s.data.map asciiLower⟩

/-- Embeds `str::to_uppercase` on the ASCII level text. -/
def strUpper (s : String) : String :=
  ⟨s.data.map asciiUpper⟩

/-- The metadata and recorded attributes of one fired event. -/
structure EventRecord where
  level : Level
  target : String
  file : Option String := none
  line : Option Nat := none
  fields : Fields := []

/-! ## The streaming formatter (`src/formatter.rs` lines 79-164, identical to
`src/lib.rs` lines 136-222) -/

/-- The configuration carried by `JsonEventFormatter`
(`src/formatter.rs` lines 16-23). -/
structure JsonEventFormatter where
  level_name : String := "level"
  message_name : String := "message"
  target_name : String := "target"
  timestamp_name : String := "timestamp"
  timestamp_format : TimestampFormat := .Rfc3339
  flatten_fields : Bool := true

/-- Insert into a sorted, duplicate-free association list, as
`serde_json::Map` (a `BTreeMap`) does on parsing an object: keys are kept in
ascending order and a repeated key replaces the earlier value. -/
def sortedInsert : List (String × JVal) → String → JVal → List (String × JVal)
  | [], k, v => [(k, v)]
  | (k', v') :: rest, k, v =>
      if k = k' then (k, v) :: rest
      else if k < k' then (k, v) :: (k', v') :: rest
      else (k', v') :: sortedInsert rest k v

/-- The `serde_json::Value::Object` obtained by parsing back a cached
per-span `FormattedFields` string.  The cache is the output of
`FieldsFormatter::format_fields` (`src/formatter.rs` lines 181-199) on the
span's recorded fields, and `serde_json` objects are `BTreeMap`s, so the
parse yields the fields sorted by name with a repeated name collapsed to its
last value. -/
def parsedCache (cache : Fields) : List (String × JVal) :=
  cache.foldl (fun m kv => sortedInsert m kv.1 kv.2) []

/-- The members contributed to the root object by one span of the scope
chain (`src/formatter.rs` lines 145-155): each entry of the parsed cache is
written with `serialize_entry`, in the parsed object's order. -/
def scopeCacheEntries (cache : Fields) : List (String × Json) :=
  (parsedCache cache).map (fun kv => (kv.1, kv.2.toJson))

/-- The ordered member list of the JSON object built by
`JsonEventFormatter::format_event` on the non-panicking path: the `level`,
timestamp and `target` entries, then the event's own fields (flattened via
`tracing_serde::SerdeMapVisitor`, which writes each recorded field under its
literal name, or nested as a single `"fields"` object from
`event.field_map()`), then the members of every span cache, root to leaf. -/
def formatEntries (cfg : JsonEventFormatter) (ev : EventRecord)
    (scopes : List Fields) (now : Instant) : List (String × Json) :=
  [(cfg.level_name, .str (strLower ev.level.display)),
   (cfg.timestamp_name, timestampJson cfg.timestamp_format now),
   (cfg.target_name, .str ev.target)]
  ++ (if cfg.flatten_fields then
        ev.fields.map (fun kv => (kv.1, kv.2.toJson))
      else
        [("fields", .obj (ev.fields.map (fun kv => (kv.1, kv.2.toJson))))])
  ++ scopes.flatMap scopeCacheEntries

/-- The error enum of `src/lib.rs` lines 113-123. -/
inductive Error where
  | Format | Serde | Utf8 | Unknown
deriving Repr, DecidableEq

/-- Observable outcome of one `format_event` call: the text handed to the
writer, a returned error, or a panic (`expect`) that unwinds out of the
call. -/
inductive FormatResult where
  | ok : String → FormatResult
  | err : Error → FormatResult
  | panicked : String → FormatResult
deriving Repr

/-- Embeds `JsonEventFormatter::format_event` (`src/formatter.rs` lines 79-164).
Each element of `scopes` is the extension storage of one span of the chain,
root first: `some cache` when the `FormattedFields` cache is present and
`none` when it is missing, in which case the source's
`.expect("Unable to find FormattedFields in extensions; this is a bug")`
panics.  Nothing reaches the writer before `serializer.end()` succeeds, so a
panicking call emits no text at all. -/
def format_event (cfg : JsonEventFormatter) (ev : EventRecord)
    (scopes : List (Option Fields)) (now : Instant) : FormatResult :=
  if scopes.all Option.isSome then
    .ok ⟨renderJson (.obj (formatEntries cfg ev (scopes.filterMap id) now)) ++ ['\n']⟩
  else
    .panicked "Unable to find FormattedFields in extensions; this is a bug"

/-! ## The map-based layer (`src/layer.rs`) -/

/-- Modelled from the spec: `crate::Casing`, referenced by
`JsonFormattingLayer` but whose defining module is not part of the sources;
section 4.4 of the specification describes it as the `lowercase`/`uppercase`
rendering choice for the severity text, defaulting to lowercase. -/
inductive Casing where
  | Lowercase : Casing
  | Uppercase : Casing
deriving Repr, DecidableEq

/-- A `HashMap<&str, serde_json::Value>` as used for the root object of
`on_event`: a duplicate-free association list.  An insert removes any
earlier binding of the key, so lookups see the latest insert
(last-write-wins); the list order itself is an arbitrary determinization of
the hash map's unspecified iteration order. -/
abbrev JMap := List (String × Json)

/-- Embeds `HashMap::insert`. -/
def mapInsert (m : JMap) (k : String) (v : Json) : JMap :=
  (k, v) :: m.filter (fun p => p.1 ≠ k)

/-- Embeds `HashMap::get`. -/
def mapGet (m : JMap) (k : String) : Option Json :=
  (m.find? (fun p => p.1 = k)).map (fun p => p.2)

/-- The key under which one recorded field is written: a field literally
named `message` goes under the configured message name, every other field
under its own name (the `if *k == "message"` branches of `on_event`,
`src/layer.rs` lines 133-139, 142-148, 160-166 and 176-184). -/
def renameKey (message_name k : String) : String :=
  if k = "message" then message_name else k

/-- Insert a list of recorded fields into a map, applying the message
renaming to each key (one `for_each` loop of `on_event`). -/
def insertFields (message_name : String) (m : JMap) (l : Fields) : JMap :=
  l.foldl (fun r kv => mapInsert r (renameKey message_name kv.1) kv.2.toJson) m

/-- Insert already-converted JSON fields into a map with the message
renaming, as the span-flattening loop does (`src/layer.rs` lines 176-184). -/
def insertJsonFields (message_name : String) (m : JMap) (l : List (String × Json)) : JMap :=
  l.foldl (fun r kv => mapInsert r (renameKey message_name kv.1) kv.2) m

/-- The per-scope `fields` hash map built inside `on_event`
(`src/layer.rs` lines 156-167): the scope's stored attributes with the
message renaming applied, collapsed by last-write-wins. -/
def buildFieldMap (message_name : String) (l : Fields) : JMap :=
  insertFields message_name [] l

/-- The configuration carried by `JsonFormattingLayer`
(`src/layer.rs` lines 9-20). -/
structure JsonFormattingLayer where
  level_name : String := "level"
  level_value_casing : Casing := .Lowercase
  message_name : String := "message"
  target_name : String := "target"
  timestamp_name : String := "timestamp"
  timestamp_format : TimestampFormat := .Rfc3339
  line_numbers : Bool := false
  file_names : Bool := false
  flatten_fields : Bool := true
  flatten_spans : Bool := true

/-- The ordered sequence of non-empty per-scope field maps, root to leaf
(`src/layer.rs` lines 153-172).  Each element of `scopes` is one span of the
chain, root first; `none` models a span whose `JsonStorage` extension is
absent, which the source skips (its `fields` map stays empty and is not
pushed). -/
def spanMaps (message_name : String) (scopes : List (Option Fields)) : List JMap :=
  (scopes.map (fun s => buildFieldMap message_name (s.getD []))).filter (fun m => !m.isEmpty)

/-- The severity text written by the layer: the level's `Display` rendering
lower- or uppercased per `level_value_casing` (`src/layer.rs` lines 94-104).
-/
def levelText (cfg : JsonFormattingLayer) (lvl : Level) : String :=
  match cfg.level_value_casing with
  | .Lowercase => strLower lvl.display
  | .Uppercase => strUpper lvl.display

/-- The fixed-metadata part of the root map built by
`JsonFormattingLayer::on_event` (`src/layer.rs` lines 91-129): the level
entry under `level_name` rendered per `level_value_casing`, the target, the
timestamp (number or string per the format), and the optional `file` /
`line` entries, written when the corresponding flag is on and the metadata
is present (`if self.file_names && event.metadata().file().is_some()`; the
`.expect("is some")` read is modelled by `Option.getD` under that guard). -/
def baseRoot (cfg : JsonFormattingLayer) (ev : EventRecord) (now : Instant) : JMap :=
  let root : JMap := []
  let root := mapInsert root cfg.level_name (.str (levelText cfg ev.level))
  let root := mapInsert root cfg.target_name (.str ev.target)
  let root := mapInsert root cfg.timestamp_name (timestampJson cfg.timestamp_format now)
  let root := if cfg.file_names && ev.file.isSome then
      mapInsert root "file" (.str (ev.file.getD ""))
    else root
  let root := if cfg.line_numbers && ev.line.isSome then
      mapInsert root "line" (.num (ev.line.getD 0))
    else root
  root

/-- The root map after the event's own recorded fields (`src/layer.rs`
lines 131-150): flattened into the root with the message renaming, or
nested as a single `"fields"` object. -/
def eventRoot (cfg : JsonFormattingLayer) (ev : EventRecord) (now : Instant) : JMap :=
  if cfg.flatten_fields then
    insertFields cfg.message_name (baseRoot cfg ev now) ev.fields
  else
    mapInsert (baseRoot cfg ev now) "fields"
      (.obj (buildFieldMap cfg.message_name ev.fields))

/-- Embeds `JsonFormattingLayer::on_event` (`src/layer.rs` lines 82-192), producing
the root `HashMap` that is then serialized and printed: the metadata and
event-field entries of `eventRoot`, then — when the scope chain contributed
at least one non-empty field map — either every scope map flattened into
the root in root-to-leaf order (each insert overwriting an earlier binding
of the same key) or a single `"spans"` array of the per-scope objects. -/
def layerOnEvent (cfg : JsonFormattingLayer) (ev : EventRecord)
    (scopes : List (Option Fields)) (now : Instant) : JMap :=
  if !(spanMaps cfg.message_name scopes).isEmpty then
    if cfg.flatten_spans then
      (spanMaps cfg.message_name scopes).foldl
        (fun r m => insertJsonFields cfg.message_name r m) (eventRoot cfg ev now)
    else
      mapInsert (eventRoot cfg ev now) "spans"
        (.arr ((spanMaps cfg.message_name scopes).map Json.obj))
  else eventRoot cfg ev now

/-! ## The field visitor (`src/visitor.rs`) -/

/-- The observable state of a `Visitor`: the entries the underlying
serializer has accepted so far, and the stored first error, if any
(`state : Result<(), W::Error>`). -/
structure VisitorState (E : Type) where
  written : List (String × JVal)
  state : Except E Unit

/-- Embeds the key choice of `Visitor::serialize_entry` (`src/visitor.rs` lines 29-39):
with `overwrite_message_name` set, the key `message` is replaced by the
configured name. -/
def visitorKey (overwrite_message_name : Option String) (k : String) : String :=
  match overwrite_message_name with
  | some m => if k = "message" then m else k
  | none => k

/-- One `record_*` callback (`src/visitor.rs` lines 46-102): if the stored
state is still `Ok`, attempt the underlying `serialize_entry` — modelled by
the abstract writer `w`, which either accepts the entry or reports an error
— and store the outcome; otherwise do nothing. -/
def visitOne (w : String × JVal → Except E Unit)
    (overwrite_message_name : Option String)
    (vs : VisitorState E) (kv : String × JVal) : VisitorState E :=
  match vs.state with
  | .ok _ =>
      let entry := (visitorKey overwrite_message_name kv.1, kv.2)
      match w entry with
      | .ok _ => { written := vs.written ++ [entry], state := .ok () }
      | .error e => { written := vs.written, state := .error e }
  | .error _ => vs

/-- Run a fresh `Visitor` over a sequence of recorded fields. -/
def runVisitor (w : String × JVal → Except E Unit)
    (overwrite_message_name : Option String) (pairs : Fields) : VisitorState E :=
  pairs.foldl (visitOne w overwrite_message_name) ⟨[], .ok ()⟩

/-- Embeds `Visitor::finish` (`src/visitor.rs` lines 24-26). -/
def VisitorState.fin (vs : VisitorState E) : Except E Unit :=
  vs.state

/-! ## Rendered JSON text contains no newline

The serializer escapes every control character inside strings, numbers are
digits with an optional sign, and the structural punctuation is
newline-free, so the rendered text of a JSON document never contains `'\n'`.
These lemmas back the exactly-one-trailing-newline part of the validity
claim. -/

theorem digitChar_ne_nl (d : Nat) : digitChar d ≠ '\n' := by
  unfold digitChar
  have h : d % 10 < 10 := Nat.mod_lt _ (by norm_num)
  interval_cases h : d % 10 <;> decide

theorem hexDigit_ne_nl (d : Nat) : hexDigit d ≠ '\n' := by
  unfold hexDigit
  have h : d % 16 < 16 := Nat.mod_lt _ (by norm_num)
  interval_cases h : d % 16 <;> decide

theorem nl_not_mem_natDigits (n : Nat) : '\n' ∉ natDigits n := by
  induction n using Nat.strong_induction_on with
  | _ n ih =>
    rw [natDigits]
    by_cases h : n < 10
    · simp [h, digitChar_ne_nl n]
      exact fun hc => (digitChar_ne_nl n) hc.symm
    · simp only [h, dite_false, List.mem_append, List.mem_singleton]
      rintro (hmem | heq)
      · exact ih (n / 10) (Nat.div_lt_self (by omega) (by omega)) hmem
      · exact (digitChar_ne_nl (n % 10)) heq.symm

theorem nl_not_mem_renderInt (i : Int) : '\n' ∉ renderInt i := by
  unfold renderInt
  by_cases h : i < 0 <;> simp [h, nl_not_mem_natDigits]

theorem nl_not_mem_escapeChar (c : Char) : '\n' ∉ escapeChar c := by
  unfold escapeChar
  by_cases h1 : c = '"'
  · rw [if_pos h1]; decide
  rw [if_neg h1]
  by_cases h2 : c = '\\'
  · rw [if_pos h2]; decide
  rw [if_neg h2]
  by_cases h3 : c = '\x08'
  · rw [if_pos h3]; decide
  rw [if_neg h3]
  by_cases h4 : c = '\t'
  · rw [if_pos h4]; decide
  rw [if_neg h4]
  by_cases h5 : c = '\n'
  · rw [if_pos h5]; decide
  rw [if_neg h5]
  by_cases h6 : c = '\x0c'
  · rw [if_pos h6]; decide
  rw [if_neg h6]
  by_cases h7 : c = '\r'
  · rw [if_pos h7]; decide
  rw [if_neg h7]
  by_cases h8 : c.toNat < 32
  · rw [if_pos h8]
    intro hmem
    simp only [List.mem_cons, List.not_mem_nil, or_false] at hmem
    rcases hmem with h | h | h | h | h | h
    · exact absurd h (by decide)
    · exact absurd h (by decide)
    · exact absurd h (by decide)
    · exact absurd h (by decide)
    · exact (hexDigit_ne_nl _) h.symm
    · exact (hexDigit_ne_nl _) h.symm
  · rw [if_neg h8]
    intro hmem
    simp only [List.mem_singleton] at hmem
    exact h5 hmem.symm

theorem nl_not_mem_renderString (s : String) : '\n' ∉ renderString s := by
  unfold renderString
  intro hmem
  rcases List.mem_append.mp hmem with h1 | h2
  · rcases List.mem_cons.mp h1 with hc | hfm
    · exact absurd hc (by decide)
    · rcases List.mem_flatMap.mp hfm with ⟨c, _, hc⟩
      exact nl_not_mem_escapeChar c hc
  · exact absurd (List.mem_singleton.mp h2) (by decide)

/-- Object members render newline-free as soon as every member value does. -/
theorem nl_not_mem_renderMembers (ms : List (String × Json))
    (h : ∀ p ∈ ms, '\n' ∉ renderJson p.2) : '\n' ∉ renderMembers ms := by
  induction ms with
  | nil => simp [renderMembers]
  | cons p tail ih =>
    match tail with
    | [] =>
      obtain ⟨k, v⟩ := p
      rw [renderMembers]
      intro hmem
      rcases List.mem_append.mp hmem with hk | hv
      · exact nl_not_mem_renderString k hk
      · rcases List.mem_cons.mp hv with hc | hv
        · exact absurd hc (by decide)
        · exact h (k, v) (by simp) hv
    | q :: rest =>
      obtain ⟨k, v⟩ := p
      rw [renderMembers]
      intro hmem
      rcases List.mem_append.mp hmem with hk | hv
      · rcases List.mem_append.mp hk with hk2 | hv2
        · exact nl_not_mem_renderString k hk2
        · rcases List.mem_cons.mp hv2 with hc | hv2
          · exact absurd hc (by decide)
          · exact h (k, v) (by simp) hv2
      · rcases List.mem_cons.mp hv with hc | hrest
        · exact absurd hc (by decide)
        · exact ih (fun r hr => h r (List.mem_cons_of_mem _ hr)) hrest

/-- A rendered JSON object contains no newline as soon as every member value
renders newline-free. -/
theorem nl_not_mem_renderObj (ms : List (String × Json))
    (h : ∀ p ∈ ms, '\n' ∉ renderJson p.2) : '\n' ∉ renderJson (.obj ms) := by
  rw [renderJson]
  intro hmem
  rcases List.mem_append.mp hmem with hmem | hc
  · rcases List.mem_cons.mp hmem with hc | hmem
    · exact absurd hc (by decide)
    · exact nl_not_mem_renderMembers ms h hmem
  · rcases List.mem_singleton.mp hc with hc
    exact absurd hc (by decide)

theorem nl_not_mem_render_toJson (v : JVal) : '\n' ∉ renderJson v.toJson := by
  cases v with
  | num i => rw [JVal.toJson, renderJson]; exact nl_not_mem_renderInt i
  | bool b =>
    rw [JVal.toJson, renderJson]
    cases b <;> decide
  | str s => rw [JVal.toJson, renderJson]; exact nl_not_mem_renderString s

theorem nl_not_mem_render_timestampJson (fmt : TimestampFormat) (now : Instant) :
    '\n' ∉ renderJson (timestampJson fmt now) := by
  unfold timestampJson
  by_cases h : fmt.isNumeric
  · rw [if_pos h, renderJson]; exact nl_not_mem_renderInt _
  · rw [if_neg h, renderJson]; exact nl_not_mem_renderString _

/-- Every member value produced by the streaming formatter renders
newline-free. -/
theorem formatEntries_values_nl (cfg : JsonEventFormatter) (ev : EventRecord)
    (scopes : List Fields) (now : Instant) :
    ∀ p ∈ formatEntries cfg ev scopes now, '\n' ∉ renderJson p.2 := by
  intro p hp
  unfold formatEntries at hp
  rcases List.mem_append.mp hp with hp | hscope
  · rcases List.mem_append.mp hp with hhead | hfields
    · rcases List.mem_cons.mp hhead with rfl | hhead
      · rw [renderJson]; exact nl_not_mem_renderString _
      rcases List.mem_cons.mp hhead with rfl | hhead
      · exact nl_not_mem_render_timestampJson _ _
      rcases List.mem_cons.mp hhead with rfl | hhead
      · rw [renderJson]; exact nl_not_mem_renderString _
      · exact absurd hhead (List.not_mem_nil _)
    · by_cases hfl : cfg.flatten_fields
      · rw [if_pos hfl] at hfields
        rcases List.mem_map.mp hfields with ⟨kv, _, rfl⟩
        exact nl_not_mem_render_toJson kv.2
      · rw [if_neg hfl] at hfields
        rcases List.mem_singleton.mp hfields with rfl
        refine nl_not_mem_renderObj _ ?_
        intro q hq
        rcases List.mem_map.mp hq with ⟨kv, _, rfl⟩
        exact nl_not_mem_render_toJson kv.2
  · rcases List.mem_flatMap.mp hscope with ⟨cache, _, hc⟩
    rcases List.mem_map.mp hc with ⟨kv, _, rfl⟩
    exact nl_not_mem_render_toJson kv.2

/-! ## Claim C1: validity of the streaming formatter's output -/

/-- C1: for every input event and scope chain, if the formatting call
succeeds, its output is the rendering of a single JSON object followed by
exactly one trailing newline (the rendered object itself contains no
newline character, so the terminating `'\n'` is the only one). -/
theorem format_event_validity (cfg : JsonEventFormatter) (ev : EventRecord)
    (scopes : List (Option Fields)) (now : Instant) (out : String)
    (h : format_event cfg ev scopes now = .ok out) :
    ∃ ms, out.data = renderJson (.obj ms) ++ ['\n'] ∧ '\n' ∉ renderJson (.obj ms) := by
  unfold format_event at h
  split at h
  · refine ⟨formatEntries cfg ev (scopes.filterMap id) now, ?_, ?_⟩
    · cases h
      rfl
    · exact nl_not_mem_renderObj _
        (formatEntries_values_nl cfg ev (scopes.filterMap id) now)
  · cases h

/-- A fixed capture instant for the closed witness statements. -/
def epochInstant : Instant :=
  ⟨0, 0, "1970-01-01T00:00:00Z", "1970-01-01T00:00:00.000000000Z", fun _ => "1970"⟩

/-- A sample event for the closed witness statements. -/
def sampleEvent : EventRecord :=
  { level := .info, target := "app", fields := [("message", .str "hi"), ("life", .num 42)] }

/-- Witness for C1 at a concrete input. -/
theorem format_event_validity_witness :
    ∃ ms, (String.mk (renderJson
        (.obj (formatEntries {} sampleEvent [] epochInstant)) ++ ['\n'])).data
      = renderJson (.obj ms) ++ ['\n'] ∧ '\n' ∉ renderJson (.obj ms) :=
  format_event_validity {} sampleEvent [] epochInstant _ rfl

/-! ## Claim C4: timestamp format selects number vs. string -/

/-- C4: for every event, the entry written under the configured timestamp
name (the second member the streaming formatter writes) is a JSON number
exactly when the configured format is `Unix` or `UnixMillis`, and a JSON
string exactly when it is `Rfc3339`, `Rfc3339Nanos` or a custom pattern. -/
theorem timestamp_field_kind (cfg : JsonEventFormatter) (ev : EventRecord)
    (scopes : List Fields) (now : Instant) :
    (formatEntries cfg ev scopes now)[1]?
        = some (cfg.timestamp_name, timestampJson cfg.timestamp_format now)
    ∧ ((∃ n, timestampJson cfg.timestamp_format now = .num n) ↔
        (cfg.timestamp_format = .Unix ∨ cfg.timestamp_format = .UnixMillis))
    ∧ ((∃ s, timestampJson cfg.timestamp_format now = .str s) ↔
        ¬(cfg.timestamp_format = .Unix ∨ cfg.timestamp_format = .UnixMillis)) := by
  refine ⟨?_, ?_, ?_⟩
  · unfold formatEntries
    rfl
  · cases cfg.timestamp_format <;> simp [timestampJson, TimestampFormat.isNumeric]
  · cases cfg.timestamp_format <;> simp [timestampJson, TimestampFormat.isNumeric]

/-! ## Claim C10: pre-epoch numeric timestamps wrap modulo 2^64 -/

/-- A capture instant strictly before the UNIX epoch, for the closed witness
statements. -/
def preEpochInstant : Instant :=
  ⟨-5, -5000, "1969-12-31T23:59:55Z", "1969-12-31T23:59:55.000000000Z", fun _ => "1969"⟩

/-- C10: when the timestamp format is `Unix` or `UnixMillis` and the capture
instant lies strictly before the epoch (a negative `i64` count), the emitted
timestamp member carries the negative count cast `as u64`, i.e. the count
plus `2 ^ 64`, a non-negative number — not the negative count itself. -/
theorem format_number_pre_epoch_wraps (cfg : JsonEventFormatter) (ev : EventRecord)
    (scopes : List Fields) (now : Instant)
    (hs : now.secs < 0) (hsb : -(2 ^ 63) ≤ now.secs)
    (hm : now.millis < 0) (hmb : -(2 ^ 63) ≤ now.millis) :
    (cfg.timestamp_format = .Unix →
      (formatEntries cfg ev scopes now)[1]?
        = some (cfg.timestamp_name, .num (now.secs + 2 ^ 64)))
    ∧ (cfg.timestamp_format = .UnixMillis →
      (formatEntries cfg ev scopes now)[1]?
        = some (cfg.timestamp_name, .num (now.millis + 2 ^ 64)))
    ∧ 0 ≤ now.secs + 2 ^ 64 ∧ now.secs + 2 ^ 64 ≠ now.secs
    ∧ 0 ≤ now.millis + 2 ^ 64 ∧ now.millis + 2 ^ 64 ≠ now.millis := by
  have hwrap : ∀ t : Int, t < 0 → -(2 ^ 63) ≤ t → asU64 t = t + 2 ^ 64 := by
    intro t h1 h2
    unfold asU64
    omega
  refine ⟨?_, ?_, by omega, by omega, by omega, by omega⟩
  · intro hfmt
    have : (formatEntries cfg ev scopes now)[1]?
        = some (cfg.timestamp_name, timestampJson cfg.timestamp_format now) := by
      unfold formatEntries; rfl
    rw [this, hfmt]
    show some (cfg.timestamp_name, Json.num (asU64 now.secs))
      = some (cfg.timestamp_name, Json.num (now.secs + 2 ^ 64))
    rw [hwrap now.secs hs hsb]
  · intro hfmt
    have : (formatEntries cfg ev scopes now)[1]?
        = some (cfg.timestamp_name, timestampJson cfg.timestamp_format now) := by
      unfold formatEntries; rfl
    rw [this, hfmt]
    show some (cfg.timestamp_name, Json.num (asU64 now.millis))
      = some (cfg.timestamp_name, Json.num (now.millis + 2 ^ 64))
    rw [hwrap now.millis hm hmb]

/-- Witness for C10 at a concrete pre-epoch instant. -/
theorem format_number_pre_epoch_wraps_witness :
    (({ timestamp_format := .Unix } : JsonEventFormatter).timestamp_format = .Unix →
      (formatEntries { timestamp_format := .Unix } sampleEvent [] preEpochInstant)[1]?
        = some (({ timestamp_format := .Unix } : JsonEventFormatter).timestamp_name,
            .num (preEpochInstant.secs + 2 ^ 64)))
    ∧ (({ timestamp_format := .Unix } : JsonEventFormatter).timestamp_format = .UnixMillis →
      (formatEntries { timestamp_format := .Unix } sampleEvent [] preEpochInstant)[1]?
        = some (({ timestamp_format := .Unix } : JsonEventFormatter).timestamp_name,
            .num (preEpochInstant.millis + 2 ^ 64)))
    ∧ 0 ≤ preEpochInstant.secs + 2 ^ 64 ∧ preEpochInstant.secs + 2 ^ 64 ≠ preEpochInstant.secs
    ∧ 0 ≤ preEpochInstant.millis + 2 ^ 64
    ∧ preEpochInstant.millis + 2 ^ 64 ≠ preEpochInstant.millis :=
  format_number_pre_epoch_wraps { timestamp_format := .Unix } sampleEvent [] preEpochInstant
    (by decide) (by decide) (by decide) (by decide)

/-! ## Claim C3: the streaming formatter never applies the message renaming -/

/-- An event whose only recorded attribute is literally named `message`. -/
def msgEvent : EventRecord :=
  { level := .info, target := "app", fields := [("message", .str "hello")] }

/-- C3 failing input: with the configured message name `"msg"` (differing
from `"message"`), `JsonEventFormatter::format_event` still writes the
attribute under the literal key `"message"` and writes no `"msg"` member at
all — in the flattened form (the event is recorded through
`tracing_serde::SerdeMapVisitor`, which keeps literal field names) and in
the nested form (`event.field_map()` likewise keeps literal names).  The
`message_name` carried by the formatter is never read by `format_event`. -/
theorem message_not_renamed_in_format_event :
    (("message", Json.str "hello")
        ∈ formatEntries { message_name := "msg" } msgEvent [] epochInstant)
    ∧ ("msg" ∉ (formatEntries { message_name := "msg" } msgEvent [] epochInstant).map Prod.fst)
    ∧ (("fields", Json.obj [("message", Json.str "hello")])
        ∈ formatEntries { message_name := "msg", flatten_fields := false } msgEvent [] epochInstant)
    ∧ ("msg" ∉ (formatEntries { message_name := "msg", flatten_fields := false }
          msgEvent [] epochInstant).map Prod.fst) := by
  refine ⟨?_, ?_, ?_, ?_⟩ <;>
    simp [formatEntries, timestampJson, TimestampFormat.isNumeric,
      TimestampFormat.format_string, epochInstant, Level.display, msgEvent, JVal.toJson] <;>
    refine ⟨by decide, by decide, by decide⟩

/-! ## Claim C7: a missing per-scope cache panics instead of returning an
error -/

/-- C7 counterexample: with the expected `FormattedFields` cache missing
from the (single) span of the scope chain, `format_event` does not return an
error value to the host — it panics through
`.expect("Unable to find FormattedFields in extensions; this is a bug")`,
unwinding out of the call.  (The source's error enum has no
metadata-related variant at all.) -/
theorem missing_cache_panics_counterexample :
    format_event {} sampleEvent [none] epochInstant
      = .panicked "Unable to find FormattedFields in extensions; this is a bug" :=
  rfl

/-- C7 amended: when the expected per-scope formatted-fields cache is
missing from any span in the scope chain, the formatting call for that
single event aborts by panicking (it does not return an error to the host
and does not continue); since the writer is only reached after the whole
object has been serialized, the aborted call emits no output at all, in
particular no truncated or syntactically invalid JSON line. -/
theorem missing_cache_aborts (cfg : JsonEventFormatter) (ev : EventRecord)
    (scopes : List (Option Fields)) (now : Instant)
    (h : none ∈ scopes) :
    format_event cfg ev scopes now
      = .panicked "Unable to find FormattedFields in extensions; this is a bug" := by
  unfold format_event
  split
  · rename_i hall
    rw [List.all_eq_true] at hall
    exact absurd (hall none h) (by simp)
  · rfl

/-- Witness for the amended C7 at a concrete input. -/
theorem missing_cache_aborts_witness :
    format_event { timestamp_format := .Unix } sampleEvent [some [("a", .num 1)], none]
        epochInstant
      = .panicked "Unable to find FormattedFields in extensions; this is a bug" :=
  missing_cache_aborts { timestamp_format := .Unix } sampleEvent
    [some [("a", .num 1)], none] epochInstant (by simp)

/-! ## Claim C9: duplicate member names in the streaming output -/

theorem mem_keys_sortedInsert {l : List (String × JVal)} {k a : String} {v : JVal} :
    a ∈ (sortedInsert l k v).map Prod.fst ↔ a = k ∨ a ∈ l.map Prod.fst := by
  induction l with
  | nil => simp [sortedInsert]
  | cons p rest ih =>
    obtain ⟨k', v'⟩ := p
    by_cases h1 : k = k'
    · subst h1
      simp [sortedInsert]
    · by_cases h2 : k < k'
      · simp only [sortedInsert, if_neg h1, if_pos h2, List.map_cons, List.mem_cons]
      · simp only [sortedInsert, if_neg h1, if_neg h2, List.map_cons, List.mem_cons, ih]
        tauto

theorem pairwise_keys_sortedInsert {l : List (String × JVal)} {k : String} {v : JVal}
    (h : (l.map Prod.fst).Pairwise (· < ·)) :
    ((sortedInsert l k v).map Prod.fst).Pairwise (· < ·) := by
  induction l with
  | nil => simp [sortedInsert]
  | cons p rest ih =>
    obtain ⟨k', v'⟩ := p
    simp only [List.map_cons, List.pairwise_cons] at h
    obtain ⟨hall, hrest⟩ := h
    by_cases h1 : k = k'
    · subst h1
      have hins : sortedInsert ((k, v') :: rest) k v = (k, v) :: rest := by
        simp [sortedInsert]
      rw [hins]
      simp only [List.map_cons, List.pairwise_cons]
      exact ⟨hall, hrest⟩
    · by_cases h2 : k < k'
      · simp only [sortedInsert, if_neg h1, if_pos h2, List.map_cons, List.pairwise_cons]
        refine ⟨?_, hall, hrest⟩
        intro b hb
        rcases List.mem_cons.mp hb with rfl | hb
        · exact h2
        · exact lt_trans h2 (hall b hb)
      · have h3 : k' < k :=
          lt_of_le_of_ne (not_lt.mp h2) (fun heq => h1 heq.symm)
        simp only [sortedInsert, if_neg h1, if_neg h2, List.map_cons, List.pairwise_cons]
        refine ⟨?_, ih hrest⟩
        intro b hb
        rcases mem_keys_sortedInsert.mp hb with rfl | hb
        · exact h3
        · exact hall b hb

theorem parsedCache_pairwise (c : Fields) :
    ((parsedCache c).map Prod.fst).Pairwise (· < ·) := by
  have aux : ∀ (c : Fields) (m : List (String × JVal)),
      (m.map Prod.fst).Pairwise (· < ·) →
      (((c.foldl (fun m kv => sortedInsert m kv.1 kv.2) m)).map Prod.fst).Pairwise (· < ·) := by
    intro c
    induction c with
    | nil => intro m hm; simpa using hm
    | cons kv rest ih =>
      intro m hm
      exact ih _ (pairwise_keys_sortedInsert hm)
  exact aux c [] (by simp)

theorem parsedCache_keys_nodup (c : Fields) :
    ((parsedCache c).map Prod.fst).Nodup :=
  (parsedCache_pairwise c).imp (fun h => ne_of_lt h)

/-- In a list of members with pairwise-distinct names, `find?` on a
contained member's name returns exactly that member. -/
theorem find?_eq_of_mem_of_nodup {l : List (String × Json)} {k : String} {x : Json}
    (hnd : (l.map Prod.fst).Nodup) (hmem : (k, x) ∈ l) :
    l.find? (fun p => p.1 = k) = some (k, x) := by
  induction l with
  | nil => cases hmem
  | cons p rest ih =>
    simp only [List.map_cons, List.nodup_cons] at hnd
    rcases List.mem_cons.mp hmem with heq | hmem'
    · subst heq
      exact List.find?_cons_of_pos (p := fun q : String × Json => decide (q.1 = k)) rest (by simp)
    · have hne : p.1 ≠ k := fun h => hnd.1 (h ▸ List.mem_map_of_mem Prod.fst hmem')
      have heq := List.find?_cons_of_neg (p := fun q : String × Json => decide (q.1 = k))
        (a := p) rest (by simp [hne])
      rw [heq]
      exact ih hnd.2 hmem' 

/-- The member names of a span's contributed entries are the parsed cache's
names, hence pairwise distinct. -/
theorem scopeCacheEntries_keys (sc : Fields) :
    (scopeCacheEntries sc).map Prod.fst = (parsedCache sc).map Prod.fst := by
  simp [scopeCacheEntries, List.map_map, Function.comp]

/-- C9: whenever two contributions share a member name `k` — an event field
(in flattened mode) colliding with any scope's field, at any depth, or two
scopes at different depths colliding with each other, with or without an
event field involved — the streaming formatter's member list carries the
name `k` at least twice: the duplicate is written again, not merged.  And
when no scope deeper than `sc` contributes `k`, the last member named `k`
carries `sc`'s value, so the later-contribution-wins precedence is realized
only by a JSON consumer that keeps the last duplicate member. -/
theorem duplicate_member_names (cfg : JsonEventFormatter) (ev : EventRecord)
    (pre post : List Fields) (sc : Fields) (now : Instant) (k : String) (v₂ : JVal)
    (hsc : (k, v₂) ∈ parsedCache sc) :
    (∀ v₁, cfg.flatten_fields = true → (k, v₁) ∈ ev.fields →
      2 ≤ (formatEntries cfg ev (pre ++ sc :: post) now).countP (fun p => p.1 = k))
    ∧ (∀ s₀ ∈ pre, ∀ v₀ : JVal, (k, v₀) ∈ parsedCache s₀ →
      2 ≤ (formatEntries cfg ev (pre ++ sc :: post) now).countP (fun p => p.1 = k))
    ∧ ((∀ s ∈ post, ∀ q ∈ parsedCache s, q.1 ≠ k) →
      (formatEntries cfg ev (pre ++ sc :: post) now).reverse.find? (fun p => p.1 = k)
        = some (k, v₂.toJson)) := by
  have hscE : (k, v₂.toJson) ∈ scopeCacheEntries sc :=
    List.mem_map_of_mem _ hsc
  have hscFlat : (k, v₂.toJson) ∈ (pre ++ sc :: post).flatMap scopeCacheEntries :=
    List.mem_flatMap.mpr ⟨sc, by simp, hscE⟩
  have hscCount : 0 < ((pre ++ sc :: post).flatMap scopeCacheEntries).countP
      (fun p => p.1 = k) := by
    rw [List.countP_pos_iff]
    exact ⟨(k, v₂.toJson), hscFlat, by simp⟩
  refine ⟨?_, ?_, ?_⟩
  · intro v₁ hflat hev
    have hevE : (k, v₁.toJson) ∈ ev.fields.map (fun kv => (kv.1, JVal.toJson kv.2)) :=
      List.mem_map_of_mem _ hev
    unfold formatEntries
    rw [hflat, if_pos rfl, List.countP_append, List.countP_append]
    have h1 : 0 < (ev.fields.map (fun kv => (kv.1, JVal.toJson kv.2))).countP
        (fun p => p.1 = k) := by
      rw [List.countP_pos_iff]
      exact ⟨(k, v₁.toJson), hevE, by simp⟩
    omega
  · intro s₀ hs₀ v₀ h₀
    have h₀E : (k, v₀.toJson) ∈ scopeCacheEntries s₀ :=
      List.mem_map_of_mem _ h₀
    unfold formatEntries
    rw [List.countP_append, List.countP_append]
    have h2 : 2 ≤ ((pre ++ sc :: post).flatMap scopeCacheEntries).countP
        (fun p => p.1 = k) := by
      rw [List.flatMap_append, List.flatMap_cons, List.countP_append, List.countP_append]
      have ha : 0 < (pre.flatMap scopeCacheEntries).countP (fun p => p.1 = k) := by
        rw [List.countP_pos_iff]
        exact ⟨(k, v₀.toJson), List.mem_flatMap.mpr ⟨s₀, hs₀, h₀E⟩, by simp⟩
      have hb : 0 < (scopeCacheEntries sc).countP (fun p => p.1 = k) := by
        rw [List.countP_pos_iff]
        exact ⟨(k, v₂.toJson), hscE, by simp⟩
      omega
    omega
  · intro hpost
    have hQ : (post.flatMap scopeCacheEntries).reverse.find? (fun p => p.1 = k)
        = none := by
      rw [List.find?_eq_none]
      intro x hx
      rw [List.mem_reverse] at hx
      rcases List.mem_flatMap.mp hx with ⟨s, hs, hxs⟩
      rcases List.mem_map.mp hxs with ⟨q, hq, rfl⟩
      simp only [decide_eq_true_eq]
      exact hpost s hs q hq
    have hS : (scopeCacheEntries sc).reverse.find? (fun p => p.1 = k)
        = some (k, v₂.toJson) := by
      refine find?_eq_of_mem_of_nodup ?_ (List.mem_reverse.mpr hscE)
      rw [List.map_reverse, scopeCacheEntries_keys]
      exact List.nodup_reverse.mpr (parsedCache_keys_nodup sc)
    unfold formatEntries
    rw [List.flatMap_append, List.flatMap_cons]
    rw [List.reverse_append, List.find?_append, List.reverse_append, List.find?_append,
      List.reverse_append, List.find?_append, hQ, hS]
    rfl

/-- An event recording the single field `x = 1`, for the C9 witness. -/
def dupEvent : EventRecord :=
  { level := .info, target := "app", fields := [("x", .num 1)] }

/-- Witness for C9 at a concrete input: the scope chain holds an ancestor
scope with `x = 3` and a leaf scope with `x = 2` (taking `sc` to be the
leaf), and the event records `x = 1` with flattening enabled — so the
witness instantiates the event-versus-scope clause, the two-scope-levels
clause, and the last-duplicate clause at once. -/
theorem duplicate_member_names_witness :
    (∀ v₁, ({} : JsonEventFormatter).flatten_fields = true → ("x", v₁) ∈ dupEvent.fields →
      2 ≤ (formatEntries {} dupEvent ([[("x", JVal.num 3)]] ++ [("x", JVal.num 2)] :: [])
          epochInstant).countP (fun p => p.1 = "x"))
    ∧ (∀ s₀ ∈ [[("x", JVal.num 3)]], ∀ v₀ : JVal, ("x", v₀) ∈ parsedCache s₀ →
      2 ≤ (formatEntries {} dupEvent ([[("x", JVal.num 3)]] ++ [("x", JVal.num 2)] :: [])
          epochInstant).countP (fun p => p.1 = "x"))
    ∧ ((∀ s ∈ ([] : List Fields), ∀ q ∈ parsedCache s, q.1 ≠ "x") →
      (formatEntries {} dupEvent ([[("x", JVal.num 3)]] ++ [("x", JVal.num 2)] :: [])
          epochInstant).reverse.find? (fun p => p.1 = "x")
        = some ("x", JVal.toJson (.num 2))) :=
  duplicate_member_names {} dupEvent [[("x", JVal.num 3)]] [] [("x", JVal.num 2)]
    epochInstant "x" (.num 2) (by simp [parsedCache, sortedInsert])

/-! ## Lookup lemmas for the layer's hash maps -/

theorem find?_filter_of_imp {α : Type} (l : List α) (p q : α → Bool)
    (h : ∀ x, p x = true → q x = true) :
    (l.filter q).find? p = l.find? p := by
  induction l with
  | nil => rfl
  | cons a rest ih =>
    by_cases hq : q a = true
    · rw [List.filter_cons_of_pos hq]
      by_cases hp : p a = true
      · rw [List.find?_cons_of_pos _ hp, List.find?_cons_of_pos _ hp]
      · rw [List.find?_cons_of_neg _ (by simp [hp]), List.find?_cons_of_neg _ (by simp [hp])]
        exact ih
    · have hp : ¬p a = true := fun hpa => hq (h a hpa)
      rw [List.filter_cons_of_neg (by simp [hq]), List.find?_cons_of_neg _ (by simp [hp])]
      exact ih

@[simp] theorem mapGet_nil (k : String) : mapGet [] k = none := rfl

/-- A `HashMap` lookup after an insert: the inserted key reads back the new
value, every other key is unaffected. -/
theorem mapGet_insert (m : JMap) (k : String) (v : Json) (a : String) :
    mapGet (mapInsert m k v) a = if a = k then some v else mapGet m a := by
  unfold mapGet mapInsert
  by_cases h : a = k
  · subst h
    rw [if_pos rfl, List.find?_cons_of_pos _ (by simp)]
    rfl
  · rw [if_neg h, List.find?_cons_of_neg _ (by simp [Ne.symm h])]
    congr 1
    exact find?_filter_of_imp m _ _ (by
      intro x hx
      simp only [decide_eq_true_eq] at hx
      simp [hx, h])

theorem mem_keys_mapInsert {m : JMap} {k a : String} {v : Json}
    (h : a ∈ (mapInsert m k v).map Prod.fst) : a = k ∨ a ∈ m.map Prod.fst := by
  simp only [mapInsert, List.map_cons, List.mem_cons] at h
  rcases h with rfl | h
  · exact Or.inl rfl
  · rcases List.mem_map.mp h with ⟨p, hp, rfl⟩
    exact Or.inr (List.mem_map_of_mem _ (List.mem_of_mem_filter hp))

theorem nodup_keys_mapInsert {m : JMap} (k : String) (v : Json)
    (h : (m.map Prod.fst).Nodup) : ((mapInsert m k v).map Prod.fst).Nodup := by
  simp only [mapInsert, List.map_cons, List.nodup_cons]
  constructor
  · intro hmem
    rcases List.mem_map.mp hmem with ⟨p, hp, rfl⟩
    have := (List.mem_filter.mp hp).2
    simp at this
  · exact List.Nodup.sublist (List.Sublist.map Prod.fst (List.filter_sublist m)) h

@[simp] theorem insertFields_nil (msg : String) (m : JMap) :
    insertFields msg m [] = m := rfl

@[simp] theorem insertFields_cons (msg : String) (m : JMap) (kv : String × JVal) (rest : Fields) :
    insertFields msg m (kv :: rest)
      = insertFields msg (mapInsert m (renameKey msg kv.1) kv.2.toJson) rest := rfl

@[simp] theorem insertJsonFields_nil (msg : String) (m : JMap) :
    insertJsonFields msg m [] = m := rfl

@[simp] theorem insertJsonFields_cons (msg : String) (m : JMap) (kv : String × Json)
    (rest : JMap) :
    insertJsonFields msg m (kv :: rest)
      = insertJsonFields msg (mapInsert m (renameKey msg kv.1) kv.2) rest := rfl

theorem mapGet_insertFields_of_notMem (msg : String) (m : JMap) (l : Fields) (k : String)
    (h : ∀ kv ∈ l, renameKey msg kv.1 ≠ k) :
    mapGet (insertFields msg m l) k = mapGet m k := by
  induction l generalizing m with
  | nil => rfl
  | cons kv rest ih =>
    rw [insertFields_cons, ih _ (fun q hq => h q (List.mem_cons_of_mem _ hq)),
      mapGet_insert, if_neg (fun heq => h kv (List.mem_cons_self _ _) heq.symm)]

theorem mapGet_insertJsonFields_of_notMem (msg : String) (m : JMap) (l : JMap) (k : String)
    (h : ∀ kv ∈ l, renameKey msg kv.1 ≠ k) :
    mapGet (insertJsonFields msg m l) k = mapGet m k := by
  induction l generalizing m with
  | nil => rfl
  | cons kv rest ih =>
    rw [insertJsonFields_cons, ih _ (fun q hq => h q (List.mem_cons_of_mem _ hq)),
      mapGet_insert, if_neg (fun heq => h kv (List.mem_cons_self _ _) heq.symm)]

theorem mem_keys_insertFields {msg : String} {m : JMap} {l : Fields} {a : String}
    (h : a ∈ (insertFields msg m l).map Prod.fst) :
    a ∈ m.map Prod.fst ∨ ∃ kv ∈ l, a = renameKey msg kv.1 := by
  induction l generalizing m with
  | nil => exact Or.inl h
  | cons kv rest ih =>
    rw [insertFields_cons] at h
    rcases ih h with hm | ⟨q, hq, rfl⟩
    · rcases mem_keys_mapInsert hm with rfl | hm
      · exact Or.inr ⟨kv, List.mem_cons_self _ _, rfl⟩
      · exact Or.inl hm
    · exact Or.inr ⟨q, List.mem_cons_of_mem _ hq, rfl⟩

theorem nodup_keys_insertFields (msg : String) (m : JMap) (l : Fields)
    (h : (m.map Prod.fst).Nodup) : ((insertFields msg m l).map Prod.fst).Nodup := by
  induction l generalizing m with
  | nil => exact h
  | cons kv rest ih =>
    rw [insertFields_cons]
    exact ih _ (nodup_keys_mapInsert _ _ h)

theorem nodup_keys_buildFieldMap (msg : String) (l : Fields) :
    ((buildFieldMap msg l).map Prod.fst).Nodup :=
  nodup_keys_insertFields msg [] l (by simp)

/-- Looking up a key held by a duplicate-free member list after inserting
all of its members: the held value is read back (the key itself is not
`message` and the configured message name is a different key, so the
renaming moves no other member onto this key). -/
theorem mapGet_insertJsonFields_of_mem (msg : String) (m : JMap) (l : JMap)
    (k : String) (v : Json)
    (hmsg : msg ≠ k) (hk : k ≠ "message")
    (hnd : (l.map Prod.fst).Nodup) (hmem : (k, v) ∈ l) :
    mapGet (insertJsonFields msg m l) k = some v := by
  induction l generalizing m with
  | nil => cases hmem
  | cons p rest ih =>
    simp only [List.map_cons, List.nodup_cons] at hnd
    rcases List.mem_cons.mp hmem with heq | hmem'
    · subst heq
      rw [insertJsonFields_cons]
      have hrk : renameKey msg k = k := by
        unfold renameKey
        rw [if_neg hk]
      rw [hrk]
      have hrest : ∀ kv ∈ rest, renameKey msg kv.1 ≠ k := by
        intro kv hkv
        unfold renameKey
        by_cases hm : kv.1 = "message"
        · rw [if_pos hm]; exact hmsg
        · rw [if_neg hm]
          intro heq
          have hkm : kv.1 ∈ rest.map Prod.fst := List.mem_map_of_mem Prod.fst hkv
          rw [heq] at hkm
          exact hnd.1 hkm
      rw [mapGet_insertJsonFields_of_notMem msg _ rest k hrest, mapGet_insert, if_pos rfl]
    · rw [insertJsonFields_cons]
      exact ih _ hnd.2 hmem' 

theorem mapGet_foldl_insertJsonFields_of_notMem (msg k : String)
    (spans : List JMap) (m : JMap)
    (h : ∀ mp ∈ spans, ∀ kv ∈ mp, renameKey msg kv.1 ≠ k) :
    mapGet (spans.foldl (fun r mp => insertJsonFields msg r mp) m) k = mapGet m k := by
  induction spans generalizing m with
  | nil => rfl
  | cons mp rest ih =>
    rw [List.foldl_cons, ih _ (fun q hq => h q (List.mem_cons_of_mem _ hq)),
      mapGet_insertJsonFields_of_notMem msg _ _ _ (h mp (List.mem_cons_self _ _))]

theorem mem_keys_mapInsert_iff {m : JMap} {k a : String} {v : Json} :
    a ∈ (mapInsert m k v).map Prod.fst ↔ a = k ∨ (a ∈ m.map Prod.fst ∧ a ≠ k) := by
  simp only [mapInsert, List.map_cons, List.mem_cons, List.mem_map, List.mem_filter,
    decide_eq_true_eq]
  constructor
  · rintro (rfl | ⟨p, ⟨hp, hne⟩, rfl⟩)
    · exact Or.inl rfl
    · exact Or.inr ⟨⟨p, hp, rfl⟩, hne⟩
  · rintro (rfl | ⟨⟨p, hp, rfl⟩, hne⟩)
    · exact Or.inl rfl
    · exact Or.inr ⟨p, ⟨hp, hne⟩, rfl⟩

/-- Every key present in the metadata part of the root map is one of the
five metadata destination keys. -/
theorem mem_keys_baseRoot {cfg : JsonFormattingLayer} {ev : EventRecord} {now : Instant}
    {a : String} (h : a ∈ (baseRoot cfg ev now).map Prod.fst) :
    a = cfg.level_name ∨ a = cfg.target_name ∨ a = cfg.timestamp_name
      ∨ a = "file" ∨ a = "line" := by
  unfold baseRoot at h
  split at h <;> split at h <;>
    simp only [mem_keys_mapInsert_iff, List.map_nil, List.not_mem_nil] at h <;> tauto

theorem mapGet_eq_none_of_not_mem_keys {m : JMap} {k : String}
    (h : k ∉ m.map Prod.fst) : mapGet m k = none := by
  unfold mapGet
  rw [List.find?_eq_none.mpr]
  · rfl
  · intro p hp
    simp only [decide_eq_true_eq]
    intro heq
    exact h (heq ▸ List.mem_map_of_mem Prod.fst hp)

theorem renameKey_of_ne {msg k : String} (h : k ≠ "message") : renameKey msg k = k := by
  unfold renameKey
  rw [if_neg h]

theorem renameKey_message (msg : String) : renameKey msg "message" = msg := by
  unfold renameKey
  rw [if_pos rfl]

theorem renameKey_renameKey_ne {msg k q : String} (hmsg : msg ≠ k) (hq : q ≠ "message" → q ≠ k) :
    renameKey msg (renameKey msg q) ≠ k := by
  by_cases hm : q = "message"
  · subst hm
    rw [renameKey_message]
    unfold renameKey
    split <;> exact hmsg
  · rw [renameKey_of_ne hm, renameKey_of_ne hm]
    exact hq hm

/-- The renamed keys contributed by one scope's field map never collide with
a key `k` that is neither the configured message name nor a name recorded in
that scope. -/
theorem renameKey_buildFieldMap_ne {msg k : String} (hmsg : msg ≠ k) {s : Fields}
    (hs : ∀ kv ∈ s, kv.1 ≠ k) :
    ∀ kv ∈ buildFieldMap msg s, renameKey msg kv.1 ≠ k := by
  intro kv hkv
  have hk1 : kv.1 ∈ (buildFieldMap msg s).map Prod.fst := List.mem_map_of_mem _ hkv
  rcases mem_keys_insertFields hk1 with hnil | ⟨q, hq, heq⟩
  · simp at hnil
  · rw [heq]
    exact renameKey_renameKey_ne hmsg (fun _ => hs q hq)

/-- The level entry of the metadata stage reads back under `level_name` as
long as the later metadata inserts use different keys. -/
theorem mapGet_baseRoot_level {cfg : JsonFormattingLayer} {ev : EventRecord} {now : Instant}
    (h1 : cfg.level_name ≠ cfg.target_name) (h2 : cfg.level_name ≠ cfg.timestamp_name)
    (h3 : cfg.level_name ≠ "file") (h4 : cfg.level_name ≠ "line") :
    mapGet (baseRoot cfg ev now) cfg.level_name = some (.str (levelText cfg ev.level)) := by
  unfold baseRoot
  split <;> split <;> simp [mapGet_insert, h1, h2, h3, h4]

/-- A key that is not `"fields"`, not the configured message name and not an
event field name reads the same before and after the event-field stage. -/
theorem mapGet_eventRoot_preserved {cfg : JsonFormattingLayer} {ev : EventRecord}
    {now : Instant} {k : String}
    (hfields : k ≠ "fields")
    (hmsg : cfg.message_name ≠ k)
    (hev : ∀ kv ∈ ev.fields, kv.1 ≠ k) :
    mapGet (eventRoot cfg ev now) k = mapGet (baseRoot cfg ev now) k := by
  unfold eventRoot
  split
  · apply mapGet_insertFields_of_notMem
    intro kv hkv
    by_cases hm : kv.1 = "message"
    · rw [hm, renameKey_message]; exact hmsg
    · rw [renameKey_of_ne hm]; exact hev kv hkv
  · rw [mapGet_insert, if_neg hfields]

/-- A key that is not `"spans"`, not the configured message name and not a
field name of any scope reads the same before and after the span stage. -/
theorem mapGet_layerOnEvent_preserved {cfg : JsonFormattingLayer} {ev : EventRecord}
    {scopes : List (Option Fields)} {now : Instant} {k : String}
    (hspans : k ≠ "spans")
    (hmsg : cfg.message_name ≠ k)
    (hsc : ∀ s ∈ scopes, ∀ kv ∈ (s.getD ([] : Fields)), kv.1 ≠ k) :
    mapGet (layerOnEvent cfg ev scopes now) k = mapGet (eventRoot cfg ev now) k := by
  unfold layerOnEvent
  split
  · split
    · apply mapGet_foldl_insertJsonFields_of_notMem
      intro mp hmp kv hkv
      unfold spanMaps at hmp
      rcases List.mem_filter.mp hmp with ⟨hmem, _⟩
      rcases List.mem_map.mp hmem with ⟨s, hs, rfl⟩
      exact renameKey_buildFieldMap_ne hmsg (hsc s hs) kv hkv
    · rw [mapGet_insert, if_neg hspans]
  · rfl

/-! ## Claim C6: level field name and casing -/

/-- C6: for every event, the member written under the configured level name
is the event's level text rendered lowercase or uppercase according to the
configured casing, provided no later-applied contribution reuses the level
name as its key. -/
theorem level_field_casing (cfg : JsonFormattingLayer) (ev : EventRecord)
    (scopes : List (Option Fields)) (now : Instant)
    (h1 : cfg.level_name ≠ cfg.target_name) (h2 : cfg.level_name ≠ cfg.timestamp_name)
    (h3 : cfg.level_name ≠ "file") (h4 : cfg.level_name ≠ "line")
    (h5 : cfg.level_name ≠ "fields") (h6 : cfg.level_name ≠ "spans")
    (h7 : cfg.message_name ≠ cfg.level_name)
    (h8 : ∀ kv ∈ ev.fields, kv.1 ≠ cfg.level_name)
    (h9 : ∀ s ∈ scopes, ∀ kv ∈ (s.getD ([] : Fields)), kv.1 ≠ cfg.level_name) :
    mapGet (layerOnEvent cfg ev scopes now) cfg.level_name
      = some (.str (levelText cfg ev.level))
    ∧ (cfg.level_value_casing = .Lowercase →
        levelText cfg ev.level = strLower ev.level.display)
    ∧ (cfg.level_value_casing = .Uppercase →
        levelText cfg ev.level = strUpper ev.level.display) := by
  refine ⟨?_, ?_, ?_⟩
  · rw [mapGet_layerOnEvent_preserved h6 h7 h9,
      mapGet_eventRoot_preserved h5 h7 h8,
      mapGet_baseRoot_level h1 h2 h3 h4]
  · intro hc
    unfold levelText
    rw [hc]
  · intro hc
    unfold levelText
    rw [hc]

/-- The configuration of the spec's concrete scenario 3. -/
def sevCfg : JsonFormattingLayer :=
  { level_name := "severity", level_value_casing := .Uppercase,
    timestamp_format := .UnixMillis }

/-- An info-level event with one numeric field, for the layer witnesses. -/
def infoEvent : EventRecord :=
  { level := .info, target := "app", fields := [("life", .num 42)] }

/-- Witness for C6: scenario 3's configuration yields the member
`"severity": "INFO"`. -/
theorem level_field_casing_witness :
    mapGet (layerOnEvent sevCfg infoEvent [] epochInstant) "severity"
      = some (.str "INFO")
    ∧ (sevCfg.level_value_casing = .Lowercase →
        levelText sevCfg infoEvent.level = strLower infoEvent.level.display)
    ∧ (sevCfg.level_value_casing = .Uppercase →
        levelText sevCfg infoEvent.level = strUpper infoEvent.level.display) :=
  level_field_casing sevCfg infoEvent [] epochInstant (by decide) (by decide) (by decide)
    (by decide) (by decide) (by decide) (by decide)
    (by intro kv hkv; simp [infoEvent] at hkv; rw [hkv]; decide) (by simp)

/-! ## Claim C5: nested mode -/

/-- C5: with flattening disabled for both event and scope fields, the root
object holds every event attribute (message-renamed, last-write-wins) under
the single `"fields"` member — present even when the event records nothing,
as an empty object — and holds the non-empty per-scope attribute maps, in
root-to-leaf order, as the elements of the single `"spans"` array, which is
omitted entirely when every scope is empty or absent. -/
theorem nested_mode (cfg : JsonFormattingLayer) (ev : EventRecord)
    (scopes : List (Option Fields)) (now : Instant)
    (hff : cfg.flatten_fields = false) (hfs : cfg.flatten_spans = false)
    (h1 : cfg.level_name ≠ "spans") (h2 : cfg.target_name ≠ "spans")
    (h3 : cfg.timestamp_name ≠ "spans") :
    mapGet (layerOnEvent cfg ev scopes now) "fields"
      = some (.obj (buildFieldMap cfg.message_name ev.fields))
    ∧ (spanMaps cfg.message_name scopes = [] →
        mapGet (layerOnEvent cfg ev scopes now) "spans" = none)
    ∧ (spanMaps cfg.message_name scopes ≠ [] →
        mapGet (layerOnEvent cfg ev scopes now) "spans"
          = some (.arr ((spanMaps cfg.message_name scopes).map Json.obj))) := by
  have hfields : ∀ k : String, k ≠ "spans" →
      mapGet (layerOnEvent cfg ev scopes now) k = mapGet (eventRoot cfg ev now) k := by
    intro k hk
    unfold layerOnEvent
    by_cases hsp : (spanMaps cfg.message_name scopes).isEmpty
    · rw [if_neg (by simp [hsp])]
    · rw [if_pos (by simp [hsp]), if_neg (by simp [hfs]), mapGet_insert, if_neg hk]
  refine ⟨?_, ?_, ?_⟩
  · rw [hfields "fields" (by decide)]
    unfold eventRoot
    rw [if_neg (by simp [hff]), mapGet_insert, if_pos rfl]
  · intro h0
    unfold layerOnEvent
    rw [if_neg (by simp [h0])]
    unfold eventRoot
    rw [if_neg (by simp [hff]), mapGet_insert, if_neg (by decide)]
    apply mapGet_eq_none_of_not_mem_keys
    intro hmem
    rcases mem_keys_baseRoot hmem with ha | ha | ha | ha | ha
    · exact h1 ha.symm
    · exact h2 ha.symm
    · exact h3 ha.symm
    · exact absurd ha (by decide)
    · exact absurd ha (by decide)
  · intro hne
    unfold layerOnEvent
    rw [if_pos (by simp [List.isEmpty_iff, hne]), if_neg (by simp [hfs]),
      mapGet_insert, if_pos rfl]

/-- Witness for C5: default names, nested flags, an event with no recorded
attributes and an empty scope chain — the record still holds `fields: {}`
and no `spans` member. -/
theorem nested_mode_witness :
    mapGet (layerOnEvent
        { flatten_fields := false, flatten_spans := false } { level := .info, target := "app" }
        [] epochInstant) "fields" = some (.obj (buildFieldMap "message" []))
    ∧ (spanMaps "message" ([] : List (Option Fields)) = [] →
        mapGet (layerOnEvent
          { flatten_fields := false, flatten_spans := false } { level := .info, target := "app" }
          [] epochInstant) "spans" = none)
    ∧ (spanMaps "message" ([] : List (Option Fields)) ≠ [] →
        mapGet (layerOnEvent
          { flatten_fields := false, flatten_spans := false } { level := .info, target := "app" }
          [] epochInstant) "spans"
        = some (.arr ((spanMaps "message" ([] : List (Option Fields))).map Json.obj))) :=
  nested_mode { flatten_fields := false, flatten_spans := false }
    { level := .info, target := "app" } [] epochInstant rfl rfl
    (by decide) (by decide) (by decide)

/-! ## Claim C2: flattened field precedence -/

theorem mem_of_mapGet_eq_some {m : JMap} {k : String} {v : Json}
    (h : mapGet m k = some v) : (k, v) ∈ m := by
  unfold mapGet at h
  rcases Option.map_eq_some'.mp h with ⟨p, hfind, hp2⟩
  obtain ⟨p1, p2⟩ := p
  have hpred := List.find?_some hfind
  simp only [decide_eq_true_eq] at hpred
  simp only at hp2
  subst hpred
  subst hp2
  exact List.mem_of_find?_eq_some hfind

theorem not_mem_keys_of_mapGet_eq_none {m : JMap} {k : String}
    (h : mapGet m k = none) : ∀ kv ∈ m, kv.1 ≠ k := by
  intro kv hkv heq
  unfold mapGet at h
  rw [Option.map_eq_none'] at h
  rw [List.find?_eq_none] at h
  exact h kv hkv (by simp [heq])

theorem renameKey_ne_of_ne {msg k a : String} (hmsg : msg ≠ k) (ha : a ≠ k) :
    renameKey msg a ≠ k := by
  unfold renameKey
  split
  · exact hmsg
  · exact ha

theorem spanMaps_append_cons (msg : String) (pre post : List (Option Fields)) (sc : Fields)
    (hne : buildFieldMap msg sc ≠ []) :
    spanMaps msg (pre ++ some sc :: post)
      = spanMaps msg pre ++ buildFieldMap msg sc :: spanMaps msg post := by
  unfold spanMaps
  rw [List.map_append, List.map_cons, List.filter_append, List.filter_cons]
  simp only [Option.getD_some]
  rw [if_pos (by simp [List.isEmpty_iff, hne])]

/-- C2: with scope flattening enabled, whenever the deepest scope that
contributes a field named `k` (not the message name) maps it to `v`, the
output's member `k` is `v` — regardless of what the event's own fields, the
fixed metadata or any shallower scope wrote under `k` (scopes are applied
after the event fields, deeper scopes after shallower ones, and every
insert overwrites). -/
theorem flattened_scope_precedence (cfg : JsonFormattingLayer) (ev : EventRecord)
    (pre post : List (Option Fields)) (sc : Fields) (now : Instant) (k : String) (v : Json)
    (hspan : cfg.flatten_spans = true)
    (hk1 : k ≠ "message") (hk2 : cfg.message_name ≠ k)
    (hv : mapGet (buildFieldMap cfg.message_name sc) k = some v)
    (hpost : ∀ s ∈ post, mapGet (buildFieldMap cfg.message_name (s.getD [])) k = none) :
    mapGet (layerOnEvent cfg ev (pre ++ some sc :: post) now) k = some v := by
  have hvm : (k, v) ∈ buildFieldMap cfg.message_name sc := mem_of_mapGet_eq_some hv
  have hne : buildFieldMap cfg.message_name sc ≠ [] := List.ne_nil_of_mem hvm
  have hsplit := spanMaps_append_cons cfg.message_name pre post sc hne
  unfold layerOnEvent
  rw [hsplit, if_pos (by simp), if_pos (by simp [hspan])]
  rw [List.foldl_append, List.foldl_cons]
  rw [mapGet_foldl_insertJsonFields_of_notMem]
  · exact mapGet_insertJsonFields_of_mem cfg.message_name _ _ k v hk2 hk1
      (nodup_keys_buildFieldMap _ _) hvm
  · intro mp hmp kv hkv
    unfold spanMaps at hmp
    rcases List.mem_filter.mp hmp with ⟨hmem, _⟩
    rcases List.mem_map.mp hmem with ⟨s, hs, rfl⟩
    exact renameKey_ne_of_ne hk2
      (not_mem_keys_of_mapGet_eq_none (hpost s hs) kv hkv)

/-- Witness for C2: event field `x = 1`, ancestor scope `x = 3`, leaf scope
`x = 2`, flattening enabled — the output's `x` is the leaf scope's `2`. -/
theorem flattened_scope_precedence_witness :
    mapGet (layerOnEvent {} dupEvent
        ([some [("x", JVal.num 3)]] ++ some [("x", JVal.num 2)] :: []) epochInstant) "x"
      = some (Json.num 2) :=
  flattened_scope_precedence {} dupEvent [some [("x", JVal.num 3)]] [] [("x", JVal.num 2)]
    epochInstant "x" (Json.num 2) rfl (by decide) (by decide) rfl (by simp)

/-! ## Claim C8: the visitor halts at the first serialization error -/

/-- While the stored state is `Ok`, each visited pair is written (under its
possibly renamed key) and accumulates. -/
theorem runVisitor_ok_segment {E : Type} (w : String × JVal → Except E Unit)
    (omn : Option String) :
    ∀ (pre : Fields) (ws : List (String × JVal)),
      (∀ q ∈ pre, w (visitorKey omn q.1, q.2) = .ok ()) →
      pre.foldl (visitOne w omn) ⟨ws, .ok ()⟩
        = ⟨ws ++ pre.map (fun q => (visitorKey omn q.1, q.2)), .ok ()⟩ := by
  intro pre
  induction pre with
  | nil => intro ws _; simp
  | cons q rest ih =>
    intro ws hok
    rw [List.foldl_cons]
    have hstep : visitOne w omn ⟨ws, .ok ()⟩ q
        = ⟨ws ++ [(visitorKey omn q.1, q.2)], .ok ()⟩ := by
      unfold visitOne
      simp only [hok q (List.mem_cons_self _ _)]
    rw [hstep, ih _ (fun r hr => hok r (List.mem_cons_of_mem _ hr))]
    simp

/-- After the first error, every later `record_*` call is a no-op: the
state check at the head of each visit skips the write. -/
theorem runVisitor_error_absorbs {E : Type} (w : String × JVal → Except E Unit)
    (omn : Option String) :
    ∀ (l : Fields) (ws : List (String × JVal)) (e : E),
      l.foldl (visitOne w omn) ⟨ws, .error e⟩ = ⟨ws, .error e⟩ := by
  intro l
  induction l with
  | nil => intro ws e; rfl
  | cons q rest ih =>
    intro ws e
    rw [List.foldl_cons]
    have hstep : visitOne w omn ⟨ws, .error e⟩ q = ⟨ws, .error e⟩ := rfl
    rw [hstep, ih]

/-- C8: if the underlying writer accepts every pair before `p` and reports
an error on `p`, the visitor writes nothing for `p` or for any pair after
it, and finishing the visitor surfaces that first error. -/
theorem visitor_halts_on_first_error {E : Type} (w : String × JVal → Except E Unit)
    (omn : Option String) (pre : Fields) (p : String × JVal) (post : Fields) (e : E)
    (hpre : ∀ q ∈ pre, w (visitorKey omn q.1, q.2) = .ok ())
    (hp : w (visitorKey omn p.1, p.2) = .error e) :
    runVisitor w omn (pre ++ p :: post)
      = ⟨pre.map (fun q => (visitorKey omn q.1, q.2)), .error e⟩
    ∧ (runVisitor w omn (pre ++ p :: post)).fin = .error e := by
  have hmain : runVisitor w omn (pre ++ p :: post)
      = ⟨pre.map (fun q => (visitorKey omn q.1, q.2)), .error e⟩ := by
    unfold runVisitor
    rw [List.foldl_append, runVisitor_ok_segment w omn pre [] hpre, List.foldl_cons]
    have hstep : visitOne w omn ⟨[] ++ pre.map (fun q => (visitorKey omn q.1, q.2)), .ok ()⟩ p
        = ⟨pre.map (fun q => (visitorKey omn q.1, q.2)), .error e⟩ := by
      unfold visitOne
      simp only [hp]
      simp
    rw [hstep, runVisitor_error_absorbs]
  exact ⟨hmain, by rw [hmain]; rfl⟩

/-- A writer that rejects the key `bad`, for the C8 witness. -/
def failOnBad : String × JVal → Except Nat Unit :=
  fun kv => if kv.1 = "bad" then .error 7 else .ok ()

/-- Witness for C8 at a concrete input: the pair after the failing one is
not written and the first error is surfaced. -/
theorem visitor_halts_on_first_error_witness :
    runVisitor failOnBad none ([("a", JVal.num 1)] ++ ("bad", JVal.num 2) :: [("c", JVal.num 3)])
      = ⟨[("a", JVal.num 1)].map (fun q => (visitorKey none q.1, q.2)), .error 7⟩
    ∧ (runVisitor failOnBad none
        ([("a", JVal.num 1)] ++ ("bad", JVal.num 2) :: [("c", JVal.num 3)])).fin = .error 7 :=
  visitor_halts_on_first_error failOnBad none [("a", JVal.num 1)] ("bad", JVal.num 2)
    [("c", JVal.num 3)] 7
    (by intro q hq; simp at hq; rw [hq]; rfl) rfl
